import Mathlib

/-!
Verification of the chunking, file-naming and Markdown-assembly logic of
src/main.py (exam-planner).  Strings are modelled as `List Char`, Python
integers as `Int` (loop cursor) or `Nat` (sizes), and the unbounded `while`
loop of `chunk_text` as a fuel-indexed step function where `none` means the
loop ran past the fuel bound.
-/

/-- Resolution of one Python slice index on a sequence of length `n`:
negative indices count from the end and everything is clamped to `[0, n]`. -/
def pyIndex (n : Nat) (i : Int) : Nat :=
  if i < 0 then ((n : Int) + i).toNat else min i.toNat n

/-- Python slicing `s[i:j]` on a list of characters. -/
def pySlice (s : List Char) (i j : Int) : List Char :=
  (s.take (pyIndex s.length j)).drop (pyIndex s.length i)

/-- `text[a:b]` for in-order natural bounds, the form the chunker reaches. -/
def sliceN (s : List Char) (a b : Nat) : List Char :=
  (s.take b).drop a

/-- The `while` loop of `chunk_text` (src/main.py lines 39-46), one unit of
fuel per iteration.  Each iteration computes `end = start + chunk_size`,
appends `text[start:end]`, sets `start = end - overlap`, and breaks early
when the new `start` has reached `len(text)`; the recursive call re-checks
the `while start < len(text)` guard.  `none` models a run that exceeds the
fuel bound; a loop that diverges returns `none` for every fuel. -/
def chunkLoop (text : List Char) (chunk_size overlap : Nat) :
    Nat → Int → List (List Char) → Option (List (List Char))
  | 0, _, _ => none
  | fuel + 1, start, chunks =>
    if start < (text.length : Int) then
      if (text.length : Int) ≤ start + (chunk_size : Int) - (overlap : Int) then
        some (chunks ++ [pySlice text start (start + (chunk_size : Int))])
      else
        chunkLoop text chunk_size overlap fuel
          (start + (chunk_size : Int) - (overlap : Int))
          (chunks ++ [pySlice text start (start + (chunk_size : Int))])
    else some chunks

/-- `chunk_text(text, chunk_size=6000, overlap=500)` from src/main.py lines
34-48.  The fuel `text.length + 1` is never exhausted when
`overlap < chunk_size` (proved below), so `some` results coincide with the
Python return value; `none` occurs exactly when the loop runs longer than
the text, which only happens for the non-terminating configurations. -/
def chunk_text (text : List Char) (chunk_size : Nat := 6000) (overlap : Nat := 500) :
    Option (List (List Char)) :=
  chunkLoop text chunk_size overlap (text.length + 1) 0 []

/-- Number of chunks the loop emits on a text of length `len` with advance
step `d`: zero for empty text, otherwise the count of starts `j*d < len`,
i.e. `ceil(len / d)`. -/
def nChunks (len d : Nat) : Nat :=
  (len + d - 1) / d

/-- Scanner of Python `str.replace(pat, rep)`: walk the string left to
right; whenever (non-empty) `pat` is a prefix of the remainder, emit `rep`
and skip past the match, otherwise keep one character and move on.  One unit
of fuel per scanned position; `fuel = s.length` always suffices.  (Python
treats an empty `pat` specially; the source only ever calls replace with the
non-empty pattern `".pdf"`, and for that case this is exact.) -/
def replaceGo (pat rep : List Char) : Nat → List Char → List Char
  | 0, s => s
  | _ + 1, [] => []
  | fuel + 1, c :: rest =>
    if pat.isPrefixOf (c :: rest) && !pat.isEmpty then
      rep ++ replaceGo pat rep fuel ((c :: rest).drop pat.length)
    else
      c :: replaceGo pat rep fuel rest

/-- Python `s.replace(pat, rep)` (non-empty `pat`). -/
def python_replace (s pat rep : List Char) : List Char :=
  replaceGo pat rep s.length s

/-- The literal `'.pdf'` from src/main.py line 299. -/
def pdfExt : List Char := ['.', 'p', 'd', 'f']

/-- The literal `'_study_guide.md'` appended by the f-string on line 299. -/
def study_guide_suffix : List Char :=
  ['_', 's', 't', 'u', 'd', 'y', '_', 'g', 'u', 'i', 'd', 'e', '.', 'm', 'd']

/-- The download file name from src/main.py line 299:
`f"{uploaded_file.name.replace('.pdf', '')}_study_guide.md"`. -/
def download_file_name (name : List Char) : List Char :=
  python_replace name pdfExt [] ++ study_guide_suffix

/-- The fixed error string of `create_markdown_from_ai_analysis`
(src/main.py line 177). -/
def error_no_analysis : List Char := ("Error: No analysis result available").toList

/-- Everything the f-string of src/main.py lines 179-208 places before
`{analysis_result}`. -/
def md_before (pdf_name : List Char) : List Char :=
  ("# ").toList ++ pdf_name ++
    (" - Study Guide\n\n## 📚 AI-Generated Study Guide\n\nThis document has been comprehensively analyzed using Gemini AI to create a detailed study guide with topic frequency analysis and prioritized study recommendations.\n\n---\n\n").toList

/-- Everything the same f-string places after `{analysis_result}`. -/
def md_after : List Char :=
  ("\n\n---\n\n## 📋 Study Progress Tracker\n\n### Overall Progress\n- [ ] Review high-frequency topics first\n- [ ] Complete medium-frequency topics\n- [ ] Review low-frequency topics\n- [ ] Create summary notes\n- [ ] Practice with focus on repeated concepts\n\n### Daily Study Plan\n- [ ] Morning: Focus on high-priority topics\n- [ ] Afternoon: Review medium-priority topics\n- [ ] Evening: Quick review of low-priority topics\n\n---\n\n*Generated by PDF Study Guide Generator with Gemini AI*\n").toList

/-- `create_markdown_from_ai_analysis` (src/main.py lines 174-210).  The
argument is `none` when the upstream AI call failed; Python's
`if not analysis_result` is true exactly for `None` and the empty string. -/
def create_markdown_from_ai_analysis (analysis_result : Option (List Char))
    (pdf_name : List Char) : List Char :=
  match analysis_result with
  | none => error_no_analysis
  | some a => if a.isEmpty then error_no_analysis else md_before pdf_name ++ a ++ md_after

/-- On natural (already in-range-sign) indices, Python slicing is
take-then-drop. -/
theorem pySlice_coe (s : List Char) (a b : Nat) :
    pySlice s (a : Int) (b : Int) = sliceN s a b := by
  unfold pySlice pyIndex sliceN
  have ha : ¬((a : Int) < 0) := by omega
  have hb : ¬((b : Int) < 0) := by omega
  rw [if_neg ha, if_neg hb, Int.toNat_natCast, Int.toNat_natCast]
  have htake : s.take (min b s.length) = s.take b := by
    rcases le_total b s.length with h | h
    · rw [min_eq_left h]
    · rw [min_eq_right h, List.take_length, List.take_of_length_le h]
  rw [htake]
  rcases le_total a s.length with h | h
  · rw [min_eq_left h]
  · rw [min_eq_right h]
    have hlt : (s.take b).length ≤ s.length := by rw [List.length_take]; omega
    have h1 : (s.take b).drop s.length = [] := List.drop_eq_nil_of_le hlt
    have h2 : (s.take b).drop a = [] := List.drop_eq_nil_of_le (le_trans hlt h)
    rw [h1, h2]

/-- Main loop invariant: with a positive advance step `d = size - ov`, the
loop started at a natural cursor `s` (with enough fuel) terminates and emits
one chunk `text[s + j*d : s + j*d + size]` for each `j` with
`s + j*d < text.length`. -/
theorem chunkLoop_spec (text : List Char) (size ov : Nat) (hov : ov < size) :
    ∀ (fuel s : Nat) (acc : List (List Char)), text.length - s < fuel →
      chunkLoop text size ov fuel (s : Int) acc =
        some (acc ++ (List.range (nChunks (text.length - s) (size - ov))).map
          (fun j => sliceN text (s + j * (size - ov)) (s + j * (size - ov) + size))) := by
  intro fuel
  induction fuel with
  | zero => intro s acc h; omega
  | succ f ih =>
    intro s acc h
    by_cases hs : s < text.length
    · have hs' : ((s : Nat) : Int) < (text.length : Int) := by omega
      have hcast : ((s : Int) + (size : Int) - (ov : Int)) = (((s + (size - ov)) : Nat) : Int) := by
        omega
      have hcast2 : ((s : Int) + (size : Int)) = (((s + size) : Nat) : Int) := by
        omega
      rw [chunkLoop, if_pos hs', hcast, hcast2, pySlice_coe]
      by_cases hend : text.length ≤ s + (size - ov)
      · have hend' : ((text.length : Nat) : Int) ≤ (((s + (size - ov)) : Nat) : Int) := by omega
        rw [if_pos hend']
        have hn : nChunks (text.length - s) (size - ov) = 1 := by
          unfold nChunks
          apply Nat.div_eq_of_lt_le <;> omega
        rw [hn]
        simp [sliceN, List.range_succ]
      · have hend' : ¬(((text.length : Nat) : Int) ≤ (((s + (size - ov)) : Nat) : Int)) := by omega
        rw [if_neg hend']
        rw [ih (s + (size - ov)) (acc ++ [sliceN text s (s + size)]) (by omega)]
        rw [List.append_assoc, List.singleton_append]
        have hn : nChunks (text.length - s) (size - ov) =
            nChunks (text.length - (s + (size - ov))) (size - ov) + 1 := by
          unfold nChunks
          have hx : text.length - s + (size - ov) - 1 =
              (text.length - (s + (size - ov)) + (size - ov) - 1) + (size - ov) := by omega
          rw [hx, Nat.add_div_right _ (by omega)]
        rw [hn, List.range_succ_eq_map, List.map_cons, List.map_map]
        have h0 : sliceN text (s + 0 * (size - ov)) (s + 0 * (size - ov) + size) =
            sliceN text s (s + size) := by
          norm_num
        rw [h0]
        have hmc : ((List.range (nChunks (text.length - (s + (size - ov))) (size - ov))).map
              ((fun j => sliceN text (s + j * (size - ov)) (s + j * (size - ov) + size)) ∘ Nat.succ)) =
            ((List.range (nChunks (text.length - (s + (size - ov))) (size - ov))).map
              (fun j => sliceN text (s + (size - ov) + j * (size - ov))
                (s + (size - ov) + j * (size - ov) + size))) := by
          apply List.map_congr_left
          intro j _
          have harg : s + Nat.succ j * (size - ov) = s + (size - ov) + j * (size - ov) := by
            rw [Nat.succ_mul]; ring
          simp only [Function.comp_apply, harg]
        rw [hmc]
    · have hs' : ¬(((s : Nat) : Int) < (text.length : Int)) := by omega
      rw [chunkLoop, if_neg hs']
      have hz : text.length - s = 0 := by omega
      have hn : nChunks 0 (size - ov) = 0 := by
        unfold nChunks
        apply Nat.div_eq_of_lt
        omega
      rw [hz, hn]
      simp

/-- For a valid configuration (`overlap < chunk_size`), `chunk_text`
terminates and returns the chunks `text[j*d : j*d + size]` for
`j < ceil(len/d)`, `d = size - overlap`. -/
theorem chunk_text_spec (text : List Char) (size ov : Nat) (hov : ov < size) :
    chunk_text text size ov =
      some ((List.range (nChunks text.length (size - ov))).map
        (fun j => sliceN text (j * (size - ov)) (j * (size - ov) + size))) := by
  have h := chunkLoop_spec text size ov hov (text.length + 1) 0 [] (by omega)
  simpa using h

/-- A start index `i*d` is in range exactly when `i` is one of the emitted
chunk ordinals. -/
theorem lt_nChunks_iff (len d i : Nat) (hd : 0 < d) :
    i < nChunks len d ↔ i * d < len := by
  unfold nChunks
  constructor
  · intro h
    have h2 : (i + 1) * d ≤ len + d - 1 := (Nat.le_div_iff_mul_le hd).mp h
    rw [Nat.succ_mul] at h2
    generalize i * d = m at h2 ⊢
    omega
  · intro h
    have h2 : (i + 1) * d ≤ len + d - 1 := by
      rw [Nat.succ_mul]
      generalize i * d = m at h ⊢
      omega
    have h3 : i + 1 ≤ (len + d - 1) / d := (Nat.le_div_iff_mul_le hd).mpr h2
    omega

/-- If the configuration makes the advance step non-positive and the text is
non-empty, the loop guard stays true forever: every fuel bound is exceeded. -/
theorem chunkLoop_none_of_size_le (text : List Char) (size ov : Nat)
    (hsz : size ≤ ov) (ht : text ≠ []) :
    ∀ (fuel : Nat) (start : Int), start ≤ 0 → ∀ acc,
      chunkLoop text size ov fuel start acc = none := by
  intro fuel
  induction fuel with
  | zero => intro start h acc; rfl
  | succ f ih =>
    intro start h acc
    have hlen : 0 < text.length := List.length_pos.mpr ht
    have hcond : start < (text.length : Int) := by omega
    have hnext : start + (size : Int) - (ov : Int) ≤ 0 := by omega
    rw [chunkLoop, if_pos hcond, if_neg (by omega)]
    exact ih _ hnext _

/-- Claim C1: the spec requires `chunk_text` with `chunk_size <= overlap` to
fail fast with `InvalidConfiguration`; the code instead never leaves the
loop.  At the concrete failing input `chunk_text("a", 1, 1)` the loop
exceeds every fuel bound, i.e. it diverges and no error is ever raised. -/
theorem chunk_text_diverges_on_invalid_config :
    ∀ fuel : Nat, chunkLoop ['a'] 1 1 fuel 0 [] = none := by
  intro fuel
  exact chunkLoop_none_of_size_le ['a'] 1 1 (le_refl 1) (by decide) fuel 0 (le_refl 0) []

/-- Claim C2 (amended): `chunk_text` returns exactly one chunk, equal to the
whole text, precisely when the text is non-empty and no longer than
`chunk_size - overlap` (the advance step); the spec's bound
`length(text) <= chunkSize` is too weak. -/
theorem chunk_text_single_chunk (text : List Char) (size ov : Nat)
    (hov : ov < size) (h0 : 0 < text.length) (hle : text.length ≤ size - ov) :
    chunk_text text size ov = some [text] := by
  rw [chunk_text_spec text size ov hov]
  have hn : nChunks text.length (size - ov) = 1 := by
    unfold nChunks
    apply Nat.div_eq_of_lt_le <;> omega
  rw [hn]
  simp only [List.range_succ, List.range_zero, List.nil_append, List.map_cons, List.map_nil,
    Nat.zero_mul, Nat.zero_add, sliceN, List.drop_zero, Option.some_inj]
  rw [List.take_of_length_le (by omega)]

/-- Witness for C2 at a concrete input: `"ab"` with `chunk_size=3`,
`overlap=1` comes back as the single chunk `"ab"`. -/
theorem chunk_text_single_chunk_witness :
    (1 < 3 ∧ 0 < (['a', 'b'] : List Char).length ∧ (['a', 'b'] : List Char).length ≤ 3 - 1) ∧
    chunk_text ['a', 'b'] 3 1 = some [['a', 'b']] :=
  ⟨⟨by decide, by decide, by decide⟩,
    chunk_text_single_chunk ['a', 'b'] 3 1 (by decide) (by decide) (by decide)⟩

/-- Counterexample to C2 as stated: a text of exactly 6000 characters with
the default parameters satisfies `length(text) <= chunkSize`, yet the code
returns two chunks (after the first chunk the cursor moves to 5500 < 6000),
not one chunk equal to the whole text. -/
theorem chunk_text_6000_two_chunks_cex :
    chunk_text (List.replicate 6000 'a') 6000 500 ≠ some [List.replicate 6000 'a'] := by
  rw [chunk_text_spec _ _ _ (by norm_num)]
  intro hc
  have h := congrArg List.length (Option.some.inj hc)
  simp only [List.length_map, List.length_range, List.length_cons, List.length_nil,
    nChunks, List.length_replicate] at h
  omega

/-- Claim C3 (amended): for `size > overlap > 0` and `length(text) > overlap`
the number of chunks is `ceil(length(text) / (size - overlap))` — not
`ceil((length(text) - overlap) / (size - overlap))` — and the `i`-th chunk
has length `min(size, length(text) - i*(size - overlap))`; chunks other than
the last may also fall short of `size` when their window overruns the end of
the text. -/
theorem chunk_text_count_and_lengths (text : List Char) (size ov : Nat)
    (_hov0 : 0 < ov) (hov : ov < size) (_hlen : ov < text.length) :
    ∃ l, chunk_text text size ov = some l ∧
      l.length = (text.length + (size - ov) - 1) / (size - ov) ∧
      ∀ i (h : i < l.length),
        (l.get ⟨i, h⟩).length = min size (text.length - i * (size - ov)) := by
  refine ⟨_, chunk_text_spec text size ov hov, ?_, ?_⟩
  · simp [nChunks]
  · intro i h
    simp only [List.length_map, List.length_range] at h
    have hi : i * (size - ov) < text.length := (lt_nChunks_iff _ _ _ (by omega)).mp h
    simp only [List.get_eq_getElem, List.getElem_map, List.getElem_range, sliceN,
      List.length_drop, List.length_take]
    generalize i * (size - ov) = A at hi ⊢
    omega

/-- Witness for C3 at a concrete input: `"abcde"` with `size=3`, `overlap=1`
has `ceil(5/2) = 3` chunks of lengths `3, 3, 1`. -/
theorem chunk_text_count_and_lengths_witness :
    (0 < 1 ∧ 1 < 3 ∧ 1 < (['a', 'b', 'c', 'd', 'e'] : List Char).length) ∧
    ∃ l, chunk_text ['a', 'b', 'c', 'd', 'e'] 3 1 = some l ∧
      l.length = ((['a', 'b', 'c', 'd', 'e'] : List Char).length + (3 - 1) - 1) / (3 - 1) ∧
      ∀ i (h : i < l.length),
        (l.get ⟨i, h⟩).length =
          min 3 ((['a', 'b', 'c', 'd', 'e'] : List Char).length - i * (3 - 1)) :=
  ⟨⟨by decide, by decide, by decide⟩,
    chunk_text_count_and_lengths ['a', 'b', 'c', 'd', 'e'] 3 1 (by decide) (by decide) (by decide)⟩

/-- Counterexample to C3 as stated: for `"aaa"` with `size=3`, `overlap=2`
(so `size > overlap > 0` and `length > overlap`) the code emits three chunks
of lengths `3, 2, 1`, while the spec's formula
`ceil((length - overlap)/(size - overlap))` predicts a single chunk; the
second chunk is not the last yet its length is `2`, not `size = 3`. -/
theorem chunk_text_count_formula_cex :
    (chunk_text (List.replicate 3 'a') 3 2).map (fun l => l.map List.length) =
      some [3, 2, 1] ∧
    ((3 : Nat) - 2 + (3 - 2) - 1) / (3 - 2) = 1 := by
  constructor
  · decide
  · decide

/-- Claim C9: for every valid configuration every emitted chunk is the window
`text[i*(size-overlap) : i*(size-overlap) + size]`, starts strictly inside
the text, is non-empty, and is at most `size` long. -/
theorem chunk_text_chunk_invariants (text : List Char) (size ov : Nat) (hov : ov < size) :
    ∃ l, chunk_text text size ov = some l ∧
      ∀ i (h : i < l.length),
        l.get ⟨i, h⟩ = sliceN text (i * (size - ov)) (i * (size - ov) + size) ∧
        i * (size - ov) < text.length ∧
        l.get ⟨i, h⟩ ≠ [] ∧ (l.get ⟨i, h⟩).length ≤ size := by
  refine ⟨_, chunk_text_spec text size ov hov, ?_⟩
  intro i h
  simp only [List.length_map, List.length_range] at h
  have hi : i * (size - ov) < text.length := (lt_nChunks_iff _ _ _ (by omega)).mp h
  simp only [List.get_eq_getElem, List.getElem_map, List.getElem_range]
  refine ⟨trivial, hi, ?_, ?_⟩
  · apply List.ne_nil_of_length_pos
    simp only [sliceN, List.length_drop, List.length_take]
    generalize i * (size - ov) = A at hi ⊢
    omega
  · simp only [sliceN, List.length_drop, List.length_take]
    generalize i * (size - ov) = A
    omega

/-- Witness for C9 at a concrete input: `"abc"` with `size=2`, `overlap=1`. -/
theorem chunk_text_chunk_invariants_witness :
    1 < 2 ∧
    ∃ l, chunk_text ['a', 'b', 'c'] 2 1 = some l ∧
      ∀ i (h : i < l.length),
        l.get ⟨i, h⟩ = sliceN ['a', 'b', 'c'] (i * (2 - 1)) (i * (2 - 1) + 2) ∧
        i * (2 - 1) < (['a', 'b', 'c'] : List Char).length ∧
        l.get ⟨i, h⟩ ≠ [] ∧ (l.get ⟨i, h⟩).length ≤ 2 :=
  ⟨by decide, chunk_text_chunk_invariants ['a', 'b', 'c'] 2 1 (by decide)⟩

/-- Claim C4 (amended): a 12000-character text with the default parameters
yields exactly three chunks starting at offsets 0, 5500 and 11000; the middle
chunk is the full-size window `text[5500:11500)`, not `text[5500:11000)` as
the spec writes. -/
theorem chunk_text_12000_offsets (text : List Char) (h : text.length = 12000) :
    chunk_text text 6000 500 =
      some [sliceN text 0 6000, sliceN text 5500 11500, sliceN text 11000 12000] := by
  rw [chunk_text_spec text 6000 500 (by norm_num), h]
  have hn : nChunks 12000 (6000 - 500) = 3 := by decide
  rw [hn]
  have h3 : List.range 3 = [0, 1, 2] := by decide
  rw [h3]
  simp only [List.map_cons, List.map_nil, Option.some_inj]
  norm_num
  unfold sliceN
  rw [List.take_of_length_le (by omega), List.take_of_length_le (by omega)]

/-- Witness for C4 at a concrete 12000-character input. -/
theorem chunk_text_12000_offsets_witness :
    (List.replicate 12000 'a').length = 12000 ∧
    chunk_text (List.replicate 12000 'a') 6000 500 =
      some [sliceN (List.replicate 12000 'a') 0 6000,
        sliceN (List.replicate 12000 'a') 5500 11500,
        sliceN (List.replicate 12000 'a') 11000 12000] :=
  ⟨List.length_replicate 12000 'a', chunk_text_12000_offsets _ (List.length_replicate 12000 'a')⟩

/-- Counterexample to C4 as stated: on a concrete 12000-character text the
second chunk has 6000 characters (window `[5500:11500)`), so it differs from
the spec's asserted content `text[5500:11000)`, which has only 5500. -/
theorem chunk_text_12000_middle_chunk_cex :
    chunk_text (List.replicate 12000 'a') 6000 500 =
      some [List.replicate 6000 'a', List.replicate 6000 'a', List.replicate 1000 'a'] ∧
    List.replicate 6000 'a' ≠ sliceN (List.replicate 12000 'a') 5500 11000 := by
  constructor
  · rw [chunk_text_spec _ _ _ (by norm_num)]
    have hlen : (List.replicate 12000 'a').length = 12000 := List.length_replicate 12000 'a'
    rw [hlen]
    have hn : nChunks 12000 (6000 - 500) = 3 := by decide
    rw [hn]
    have h3 : List.range 3 = [0, 1, 2] := by decide
    rw [h3]
    simp only [List.map_cons, List.map_nil, Option.some_inj, sliceN]
    norm_num [List.take_replicate, List.drop_replicate]
  · intro hEq
    have h := congrArg List.length hEq
    simp only [sliceN, List.length_drop, List.length_take, List.length_replicate] at h
    omega

/-- Claim C6: with a valid configuration every character index of the text
falls inside the span of some emitted chunk: chunk `i/d` (with
`d = size - overlap`) starts at or before `i`, extends past it, and holds
the character `text[i]` at offset `i - (i/d)*d`. -/
theorem chunk_text_coverage (text : List Char) (size ov : Nat) (hov : ov < size)
    (i : Nat) (hi : i < text.length) :
    ∃ l j, chunk_text text size ov = some l ∧ ∃ h : j < l.length,
      j * (size - ov) ≤ i ∧ i < j * (size - ov) + (l.get ⟨j, h⟩).length ∧
      (l.get ⟨j, h⟩).get? (i - j * (size - ov)) = text.get? i := by
  have hd : 0 < size - ov := by omega
  refine ⟨_, i / (size - ov), chunk_text_spec text size ov hov, ?_⟩
  have hj1 : (i / (size - ov)) * (size - ov) ≤ i := Nat.div_mul_le_self i (size - ov)
  have hj2 : i < (i / (size - ov)) * (size - ov) + (size - ov) := by
    have h1 := Nat.div_add_mod i (size - ov)
    have h2 := Nat.mod_lt i hd
    rw [Nat.mul_comm] at h1
    generalize (i / (size - ov)) * (size - ov) = p at h1 ⊢
    omega
  have hjlen : (i / (size - ov)) * (size - ov) < text.length := lt_of_le_of_lt hj1 hi
  have hjn : i / (size - ov) < nChunks text.length (size - ov) :=
    (lt_nChunks_iff _ _ _ hd).mpr hjlen
  have hb : i / (size - ov) <
      ((List.range (nChunks text.length (size - ov))).map
        (fun j => sliceN text (j * (size - ov)) (j * (size - ov) + size))).length := by
    simpa using hjn
  refine ⟨hb, hj1, ?_, ?_⟩
  · simp only [List.get_eq_getElem, List.getElem_map, List.getElem_range, sliceN,
      List.length_drop, List.length_take]
    generalize hp : (i / (size - ov)) * (size - ov) = p at hj1 hj2 hjlen ⊢
    omega
  · simp only [List.get_eq_getElem, List.getElem_map, List.getElem_range, sliceN]
    rw [List.get?_drop]
    have harg : (i / (size - ov)) * (size - ov) + (i - (i / (size - ov)) * (size - ov)) = i := by
      generalize (i / (size - ov)) * (size - ov) = p at hj1 ⊢
      omega
    rw [harg]
    apply List.get?_take
    generalize hp : (i / (size - ov)) * (size - ov) = p at hj2 ⊢
    omega

/-- Witness for C6 at a concrete input: index 2 of `"abc"` with `size=2`,
`overlap=1`. -/
theorem chunk_text_coverage_witness :
    (1 < 2 ∧ 2 < (['a', 'b', 'c'] : List Char).length) ∧
    ∃ l j, chunk_text ['a', 'b', 'c'] 2 1 = some l ∧ ∃ h : j < l.length,
      j * (2 - 1) ≤ 2 ∧ 2 < j * (2 - 1) + (l.get ⟨j, h⟩).length ∧
      (l.get ⟨j, h⟩).get? (2 - j * (2 - 1)) = (['a', 'b', 'c'] : List Char).get? 2 :=
  ⟨⟨by decide, by decide⟩, chunk_text_coverage ['a', 'b', 'c'] 2 1 (by decide) 2 (by decide)⟩

/-- Claim C7: the last `overlap` characters of one chunk's nominal window
equal the first `overlap` characters of the next chunk's nominal window —
both are the substring `text[(j+1)*d : (j+1)*d + overlap]` — stated here,
as the spec does, away from end-of-text truncation of either window. -/
theorem chunk_text_overlap_agreement (text : List Char) (size ov : Nat) (hov : ov < size)
    (l : List (List Char)) (hl : chunk_text text size ov = some l)
    (j : Nat) (hj : j + 1 < l.length)
    (_hw1 : j * (size - ov) + size ≤ text.length)
    (_hw2 : (j + 1) * (size - ov) + size ≤ text.length) :
    (l.get ⟨j, by omega⟩).drop (size - ov) = (l.get ⟨j + 1, hj⟩).take ov := by
  rw [chunk_text_spec text size ov hov] at hl
  have hli := Option.some.inj hl
  subst hli
  simp only [List.get_eq_getElem, List.getElem_map, List.getElem_range, sliceN]
  rw [List.drop_drop, List.take_drop, List.take_take]
  have h1 : min ((j + 1) * (size - ov) + ov) ((j + 1) * (size - ov) + size) =
      (j + 1) * (size - ov) + ov := by
    apply min_eq_left
    omega
  rw [h1]
  have h2 : (j + 1) * (size - ov) + ov = j * (size - ov) + size := by
    rw [Nat.succ_mul]
    generalize j * (size - ov) = p
    omega
  have h3 : j * (size - ov) + (size - ov) = (j + 1) * (size - ov) := by
    rw [Nat.succ_mul]
  rw [h2, h3]

/-- Witness for C7 at a concrete input: `"abcde"` with `size=3`, `overlap=1`
chunks into `["abc","cde","e"]`; the first pair agrees on the character
`'c'`. -/
theorem chunk_text_overlap_agreement_witness :
    (1 < 3 ∧
      chunk_text ['a', 'b', 'c', 'd', 'e'] 3 1 =
        some [['a', 'b', 'c'], ['c', 'd', 'e'], ['e']] ∧
      0 + 1 < ([['a', 'b', 'c'], ['c', 'd', 'e'], ['e']] : List (List Char)).length ∧
      0 * (3 - 1) + 3 ≤ (['a', 'b', 'c', 'd', 'e'] : List Char).length ∧
      (0 + 1) * (3 - 1) + 3 ≤ (['a', 'b', 'c', 'd', 'e'] : List Char).length) ∧
    (([['a', 'b', 'c'], ['c', 'd', 'e'], ['e']] : List (List Char)).get
        ⟨0, by decide⟩).drop (3 - 1) =
      (([['a', 'b', 'c'], ['c', 'd', 'e'], ['e']] : List (List Char)).get
        ⟨0 + 1, by decide⟩).take 1 :=
  ⟨⟨by decide, by decide, by decide, by decide, by decide⟩,
    chunk_text_overlap_agreement ['a', 'b', 'c', 'd', 'e'] 3 1 (by decide)
      [['a', 'b', 'c'], ['c', 'd', 'e'], ['e']] (by decide) 0 (by decide)
      (by decide) (by decide)⟩

/-- Claim C8: on the empty text the loop guard is false at once and the
result is the empty sequence of chunks, for every `chunk_size` and
`overlap`. -/
theorem chunk_text_empty (chunk_size overlap : Nat) :
    chunk_text [] chunk_size overlap = some [] := rfl

/-- The scanner leaves nothing to do on an empty remainder. -/
theorem replaceGo_nil (pat rep : List Char) : ∀ fuel, replaceGo pat rep fuel [] = [] := by
  intro fuel
  cases fuel with
  | zero => rfl
  | succ f => rfl

/-- Any fuel at least the length of the remainder gives the same scan
result. -/
theorem replaceGo_fuel (pat rep : List Char) (hp : pat ≠ []) :
    ∀ (f₁ f₂ : Nat) (s : List Char), s.length ≤ f₁ → s.length ≤ f₂ →
      replaceGo pat rep f₁ s = replaceGo pat rep f₂ s := by
  intro f₁
  induction f₁ with
  | zero =>
    intro f₂ s h1 h2
    have hs : s = [] := List.eq_nil_of_length_eq_zero (by omega)
    subst hs
    rw [replaceGo_nil, replaceGo_nil]
  | succ f ih =>
    intro f₂ s h1 h2
    cases s with
    | nil => rw [replaceGo_nil, replaceGo_nil]
    | cons c rest =>
      cases f₂ with
      | zero => simp at h2
      | succ g =>
        have hplen : 1 ≤ pat.length := by
          cases pat with
          | nil => exact absurd rfl hp
          | cons p ps => simp
        rw [replaceGo, replaceGo]
        by_cases hcond : (pat.isPrefixOf (c :: rest) && !pat.isEmpty) = true
        · rw [if_pos hcond, if_pos hcond]
          congr 1
          apply ih
          · simp at h1 ⊢
            omega
          · simp at h2 ⊢
            omega
        · rw [if_neg hcond, if_neg hcond]
          congr 1
          apply ih
          · simp at h1 ⊢
            omega
          · simp at h2 ⊢
            omega

/-- A list is a prefix of itself followed by anything. -/
theorem isPrefixOf_append_self (p t : List Char) : p.isPrefixOf (p ++ t) = true := by
  induction p with
  | nil => simp
  | cons a as ih => simp [List.isPrefixOf, ih]

/-- Splitting lemma for the replace scanner: if no occurrence of `pat`
starts inside the first `s.length` positions of `s ++ pat ++ t`, the scanner
copies `s`, fires on the explicit occurrence, and continues on `t`. -/
theorem python_replace_append (pat rep : List Char) (hp : pat ≠ []) :
    ∀ (s t : List Char),
      (∀ i, i < s.length → pat.isPrefixOf ((s ++ pat ++ t).drop i) = false) →
      python_replace (s ++ pat ++ t) pat rep = s ++ rep ++ python_replace t pat rep := by
  intro s
  induction s with
  | nil =>
    intro t _
    cases pat with
    | nil => exact absurd rfl hp
    | cons p ps =>
      unfold python_replace
      simp only [List.nil_append, List.cons_append, List.length_cons]
      rw [replaceGo]
      have hcond : ((p :: ps).isPrefixOf (p :: (ps ++ t)) && !(p :: ps).isEmpty) = true := by
        have h1 : (p :: ps).isPrefixOf (p :: (ps ++ t)) = true := by
          have := isPrefixOf_append_self (p :: ps) t
          simpa using this
        rw [h1]
        rfl
      rw [if_pos hcond]
      have hdrop : (p :: (ps ++ t)).drop (p :: ps).length = t := by
        have := List.drop_left (p :: ps) t
        simpa using this
      rw [hdrop]
      congr 1
      exact replaceGo_fuel (p :: ps) rep (by simp) ((ps ++ t).length) t.length t
        (by simp) (le_refl _)
  | cons c s' ih =>
    intro t hno
    unfold python_replace
    simp only [List.cons_append, List.length_cons]
    rw [replaceGo]
    have hcond : (pat.isPrefixOf (c :: (s' ++ pat ++ t)) && !pat.isEmpty) = false := by
      have h0 := hno 0 (by simp)
      simp only [List.drop_zero, List.cons_append] at h0
      rw [h0]
      rfl
    have hcond' : ¬(pat.isPrefixOf (c :: (s' ++ pat ++ t)) && !pat.isEmpty) = true := by
      rw [hcond]
      simp
    rw [if_neg hcond']
    have hno' : ∀ i, i < s'.length → pat.isPrefixOf ((s' ++ pat ++ t).drop i) = false := by
      intro i hi
      have hstep := hno (i + 1) (by simp only [List.length_cons]; omega)
      simp only [List.cons_append, List.drop_succ_cons] at hstep
      exact hstep
    have := ih t hno'
    unfold python_replace at this
    rw [this]

/-- Claim C5 (amended): the study-guide file is named by removing every
occurrence of `'.pdf'` from the input filename — interior occurrences
included, because the code uses `str.replace('.pdf', '')` rather than suffix
stripping — and appending `'_study_guide.md'`.  Stated for a filename whose
only `'.pdf'` occurrences are the two explicit ones. -/
theorem download_file_name_removes_all_pdf (s₁ s₂ : List Char)
    (h₁ : ∀ i, i < s₁.length →
      pdfExt.isPrefixOf ((s₁ ++ pdfExt ++ (s₂ ++ pdfExt)).drop i) = false)
    (h₂ : ∀ i, i < s₂.length →
      pdfExt.isPrefixOf ((s₂ ++ pdfExt).drop i) = false) :
    download_file_name (s₁ ++ pdfExt ++ (s₂ ++ pdfExt)) =
      s₁ ++ s₂ ++ study_guide_suffix := by
  unfold download_file_name
  rw [python_replace_append pdfExt [] (by decide) s₁ (s₂ ++ pdfExt) h₁]
  have h₂' : ∀ i, i < s₂.length →
      pdfExt.isPrefixOf ((s₂ ++ pdfExt ++ ([] : List Char)).drop i) = false := by
    intro i hi
    have := h₂ i hi
    simpa using this
  have hs₂ := python_replace_append pdfExt [] (by decide) s₂ [] h₂'
  rw [List.append_nil] at hs₂
  rw [hs₂]
  have hnil : python_replace [] pdfExt [] = [] := rfl
  rw [hnil]
  simp

/-- Witness for C5 at the concrete filename `"a.pdfb.pdf"`, which names the
file `"ab_study_guide.md"`. -/
theorem download_file_name_removes_all_pdf_witness :
    (∀ i, i < (['a'] : List Char).length →
      pdfExt.isPrefixOf (((['a'] : List Char) ++ pdfExt ++ ((['b'] : List Char) ++ pdfExt)).drop i)
        = false) ∧
    (∀ i, i < (['b'] : List Char).length →
      pdfExt.isPrefixOf (((['b'] : List Char) ++ pdfExt).drop i) = false) ∧
    download_file_name (['a'] ++ pdfExt ++ (['b'] ++ pdfExt)) =
      ['a'] ++ ['b'] ++ study_guide_suffix :=
  ⟨by decide, by decide,
    download_file_name_removes_all_pdf ['a'] ['b'] (by decide) (by decide)⟩

/-- Counterexample to C5 as stated: for the input filename `"a.pdfb.pdf"`
the code removes the interior `".pdf"` too, producing `"ab_study_guide.md"`,
not the spec's `"a.pdfb_study_guide.md"` (trailing suffix stripped, interior
left unchanged). -/
theorem download_file_name_interior_pdf_cex :
    download_file_name ['a', '.', 'p', 'd', 'f', 'b', '.', 'p', 'd', 'f'] =
      ['a', 'b'] ++ study_guide_suffix ∧
    download_file_name ['a', '.', 'p', 'd', 'f', 'b', '.', 'p', 'd', 'f'] ≠
      ['a', '.', 'p', 'd', 'f', 'b'] ++ study_guide_suffix := by
  constructor
  · decide
  · decide

/-- Claim C10: `create_markdown_from_ai_analysis` returns the fixed error
string both for a failed (`None`) and for an empty analysis result — so an
empty but successful analysis is reported as an error, with no
header/footer document — and for every non-empty analysis it returns the
analysis verbatim between one fixed prefix and one fixed suffix (the same
for every non-empty analysis of the same document). -/
theorem create_markdown_behavior (pdf_name a : List Char) (ha : a ≠ []) :
    create_markdown_from_ai_analysis none pdf_name = error_no_analysis ∧
    create_markdown_from_ai_analysis (some []) pdf_name = error_no_analysis ∧
    ∃ pre post, create_markdown_from_ai_analysis (some a) pdf_name = pre ++ a ++ post ∧
      ∀ b, b ≠ [] → create_markdown_from_ai_analysis (some b) pdf_name = pre ++ b ++ post := by
  refine ⟨rfl, rfl, md_before pdf_name, md_after, ?_, ?_⟩
  · show (if (List.isEmpty a) = true then error_no_analysis
      else md_before pdf_name ++ a ++ md_after) = md_before pdf_name ++ a ++ md_after
    rw [if_neg]
    intro hempty
    exact ha (List.isEmpty_iff.mp hempty)
  · intro b hb
    show (if (List.isEmpty b) = true then error_no_analysis
      else md_before pdf_name ++ b ++ md_after) = md_before pdf_name ++ b ++ md_after
    rw [if_neg]
    intro hempty
    exact hb (List.isEmpty_iff.mp hempty)

/-- Witness for C10 at concrete inputs. -/
theorem create_markdown_behavior_witness :
    (['x'] : List Char) ≠ [] ∧
    (create_markdown_from_ai_analysis none ['n'] = error_no_analysis ∧
     create_markdown_from_ai_analysis (some []) ['n'] = error_no_analysis ∧
     ∃ pre post, create_markdown_from_ai_analysis (some ['x']) ['n'] = pre ++ ['x'] ++ post ∧
       ∀ b, b ≠ [] → create_markdown_from_ai_analysis (some b) ['n'] = pre ++ b ++ post) :=
  ⟨by decide, create_markdown_behavior ['n'] ['x'] (by decide)⟩
